import Mathlib

/-!
Shallow embedding of `orderlib` (src/src/lib.rs), a single-instrument
order-matching engine.

Modelling conventions:
* Rust `i64` is modelled as unbounded `Int`; none of the verified claims
  concern i64 wraparound.
* `std::collections::BTreeSet<Order>` is modelled as a list sorted in
  strictly ascending `ordCmp` order, so `first()` is the list head, `iter()`
  is list order, and the tree's `remove`/`replace` become `btRemove` /
  `btReplace` below (ascending scans that stop early; on a sorted list they
  coincide with the tree search).
* `get_epoch_ms()` (system time) is modelled by an explicit timestamp
  parameter `ts` threaded into `add`/`trade`.
* `Option::unwrap` panics are modelled by an outer `Option` layer
  (`none` = panic), see `best_bid`.
* The only `f64` computation modelled is the final division inside
  `limit_at_size`; `divF64` is exact on the cases the theorems rely on
  (`0.0/0.0 = NaN` per IEEE-754) and idealizes the finite case as an exact
  rational.
-/

namespace Orderlib

inductive OrderType where
  | Limit
  | Market
  | Fok
  | Ioc
  | Aon
deriving DecidableEq

inductive OrderSide where
  | Buy
  | Sell
deriving DecidableEq

structure Order where
  order_id : Int
  order_number : Int
  order_side : OrderSide
  size : Int
  price : Int
  timestamp : Int
  order_type : OrderType
deriving DecidableEq

/-- `Order::new`: fresh caller-side order, identity and timestamp zeroed. -/
def Order.new (order_side : OrderSide) (size : Int) (price : Int)
    (order_type : OrderType) : Order :=
  { order_id := 0, order_number := 0, order_side := order_side, size := size,
    price := price, timestamp := 0, order_type := order_type }

structure Fill where
  size : Int
  price : Int
  direction : OrderSide
  aggressor_id : Int
  passive_id : Int
  timestamp : Int
  fill_id : Int
deriving DecidableEq

/-- Exact model of the `f64` values produced by `limit_at_size`'s final
division (sign of infinity elided; finite case idealized as exact rational). -/
inductive F64 where
  | nan
  | inf
  | fin (q : ℚ)
deriving DecidableEq

/-- IEEE-754 division of two integers cast to `f64`: `0.0/0.0` is NaN,
`x/0.0` with `x ≠ 0` is infinite; the finite case is modelled as the exact
rational quotient. -/
def divF64 (a b : Int) : F64 :=
  if b = 0 then (if a = 0 then F64.nan else F64.inf)
  else F64.fin ((a : ℚ) / (b : ℚ))

structure LimitReport where
  price : F64
  size : Int
deriving DecidableEq

/-- `impl Ord for Order` (lib.rs:75-91): price first (larger price is
`Greater`), then on equal price the comparison of `order_number` is
inverted: a smaller `order_number` is `Greater`. -/
def ordCmp (a b : Order) : Ordering :=
  if a.price > b.price then Ordering.gt
  else if a.price < b.price then Ordering.lt
  else if a.order_number < b.order_number then Ordering.gt
  else if a.order_number > b.order_number then Ordering.lt
  else Ordering.eq

structure OrderBook where
  buy_orders : List Order
  sell_orders : List Order
  counter : Int
deriving DecidableEq

/-- `OrderBook::new` (lib.rs:135-141). -/
def OrderBook.new : OrderBook :=
  { buy_orders := [], sell_orders := [], counter := 1230 }

/-- `BTreeSet::remove(&o)` on the sorted-list model: walk in ascending
order, stop as soon as the stored element is already greater than `o`
(the tree search would have gone past it). -/
def btRemove : List Order → Order → Bool × List Order
  | [], _ => (false, [])
  | x :: xs, o =>
    match ordCmp o x with
    | Ordering.lt => (false, x :: xs)
    | Ordering.eq => (true, xs)
    | Ordering.gt => ((btRemove xs o).1, x :: (btRemove xs o).2)

/-- `BTreeSet::replace(o)` on the sorted-list model: replace the
`Ord`-equal element if present (returning the previous one), otherwise
insert `o` at its sorted position. -/
def btReplace : List Order → Order → Option Order × List Order
  | [], o => (none, [o])
  | x :: xs, o =>
    match ordCmp o x with
    | Ordering.lt => (none, o :: x :: xs)
    | Ordering.eq => (some x, o :: xs)
    | Ordering.gt => ((btReplace xs o).1, x :: (btReplace xs o).2)

/-- The `bs` sign passed by `OrderBook::add` (lib.rs:163-170): `1` for a
Buy aggressor, `-1` for a Sell aggressor. -/
def sideSign : OrderSide → Int
  | OrderSide.Buy => 1
  | OrderSide.Sell => -1

/-- The opposite-side book (`opp` in `OrderBook::trade`, lib.rs:292-301). -/
def oppList (ob : OrderBook) : OrderSide → List Order
  | OrderSide.Buy => ob.sell_orders
  | OrderSide.Sell => ob.buy_orders

/-- The aggressor's own-side book (`these` in `OrderBook::trade`). -/
def ownList (ob : OrderBook) : OrderSide → List Order
  | OrderSide.Buy => ob.buy_orders
  | OrderSide.Sell => ob.sell_orders

/-- The `Fill` record built at lib.rs:309-317, with its `size` field set to
`sz` by the branch that pushes it. -/
def mkFill (aggro next : Order) (bs ts sz : Int) : Fill :=
  { size := sz, price := bs * next.price, direction := aggro.order_side,
    aggressor_id := aggro.order_id, passive_id := next.order_id,
    timestamp := ts, fill_id := 0 }

/-- The `while` loop of `OrderBook::trade` (lib.rs:303-342), acting on the
opposite book (sorted list, best = head).  `aggro.price` is already in
internal (sign-flipped) coordinates, i.e. the source has already executed
`order.price = bs * order.price`.  Returns the fills, the aggressor with
its remaining size, and the opposite book after matching.

The source's `opp.replace(replacement)` and `opp.remove(&next_order_clone)`
both act on an element `Ord`-equal to `opp.first()`; on the sorted-list
model these are exactly "replace the head" and "drop the head"
(lemmas `btReplace_head` and `btRemove_head` below record the agreement). -/
def tradeLoop : Order → List Order → Int → Int → List Fill × Order × List Order
  | aggro, [], _, _ => ([], aggro, [])
  | aggro, next :: rest, bs, ts =>
    if 0 < aggro.size then
      if next.price > aggro.price ∧ aggro.order_type ≠ OrderType.Market then
        ([], aggro, next :: rest)
      else if aggro.size < next.size then
        ([mkFill aggro next bs ts aggro.size],
         { aggro with size := 0 },
         { next with size := next.size - aggro.size } :: rest)
      else if aggro.size > next.size then
        (mkFill aggro next bs ts next.size ::
           (tradeLoop { aggro with size := aggro.size - next.size } rest bs ts).1,
         (tradeLoop { aggro with size := aggro.size - next.size } rest bs ts).2.1,
         (tradeLoop { aggro with size := aggro.size - next.size } rest bs ts).2.2)
      else
        ([mkFill aggro next bs ts next.size], { aggro with size := 0 }, rest)
    else ([], aggro, next :: rest)

/-- `OrderBook::trade` (lib.rs:285-349): flip the aggressor's price into
internal coordinates, run the loop against the opposite book, then rest any
remainder (price flipped back by `-1 *`) into the aggressor's own book
unless the order is `Ioc`. -/
def trade (ob : OrderBook) (order : Order) (bs ts : Int) : List Fill × OrderBook :=
  let r := tradeLoop { order with price := bs * order.price }
    (oppList ob order.order_side) bs ts
  let these2 : List Order :=
    if 0 < r.2.1.size ∧ r.2.1.order_type ≠ OrderType.Ioc then
      (btReplace (ownList ob order.order_side)
        { r.2.1 with price := -1 * r.2.1.price }).2
    else ownList ob order.order_side
  match order.order_side with
  | OrderSide.Buy => (r.1, { ob with sell_orders := r.2.2, buy_orders := these2 })
  | OrderSide.Sell => (r.1, { ob with buy_orders := r.2.2, sell_orders := these2 })

/-- `OrderBook::add` (lib.rs:154-172): stamp the order with the current
time (`ts`) and the counter as its sequence number, bump the counter, and
dispatch to `trade` with `bs = sideSign side`. -/
def add (ob : OrderBook) (order : Order) (ts : Int) : (Int × List Fill) × OrderBook :=
  let r := trade { ob with counter := ob.counter + 1 }
    { order with timestamp := ts, order_number := ob.counter }
    (sideSign order.order_side) ts
  ((ob.counter, r.1), r.2)

/-- The trade walk performed inside `add ob order ts`, exposed as a value:
the admitted copy of `order` (counter as sequence number, price flipped
into internal coordinates) run against the opposite book.  `.1` is the
fill list `add` returns, `.2.1.size` is the aggressor's remaining size
after matching (rested or discarded). -/
def tradeRun (ob : OrderBook) (o : Order) (ts : Int) : List Fill × Order × List Order :=
  tradeLoop
    { o with timestamp := ts, order_number := ob.counter,
             price := sideSign o.order_side * o.price }
    (oppList ob o.order_side) (sideSign o.order_side) ts

/-- `OrderBook::remove` (lib.rs:174-184): negate the price for Buy (buy
prices are stored negated), then `BTreeSet::remove`. -/
def remove (ob : OrderBook) (order : Order) : Bool × OrderBook :=
  match order.order_side with
  | OrderSide.Buy =>
    ((btRemove ob.buy_orders { order with price := -order.price }).1,
     { ob with buy_orders := (btRemove ob.buy_orders { order with price := -order.price }).2 })
  | OrderSide.Sell =>
    ((btRemove ob.sell_orders order).1,
     { ob with sell_orders := (btRemove ob.sell_orders order).2 })

/-- `OrderBook::replace` (lib.rs:186-195): `BTreeSet::replace` on the book
of the order's side (note: no price negation, unlike `remove`). -/
def replace (ob : OrderBook) (order : Order) : Option Order × OrderBook :=
  match order.order_side with
  | OrderSide.Buy =>
    ((btReplace ob.buy_orders order).1,
     { ob with buy_orders := (btReplace ob.buy_orders order).2 })
  | OrderSide.Sell =>
    ((btReplace ob.sell_orders order).1,
     { ob with sell_orders := (btReplace ob.sell_orders order).2 })

/-- `OrderBook::best_bid` (lib.rs:197-201).  The source does
`self.buy_orders.first().cloned().unwrap()`: on an empty buy book the
`unwrap` panics.  The outer `Option` models that panic (`none` = panic);
`some r` is the value the source returns. -/
def best_bid (ob : OrderBook) : Option (Option Order) :=
  match ob.buy_orders.head? with
  | none => none
  | some bid => some (some { bid with price := -1 * bid.price })

/-- `OrderBook::best_offer` (lib.rs:203-205). -/
def best_offer (ob : OrderBook) : Option Order :=
  ob.sell_orders.head?

/-- The `for` loop of `OrderBook::limit_at_size` (lib.rs:263-272):
arguments are the remaining opposite book, `unfound_size`, and
`size_weighted_price`; returns final `(size_weighted_price, unfound_size)`. -/
def lasLoop : List Order → Int → Int → Int × Int
  | [], unfound, swp => (swp, unfound)
  | o :: rest, unfound, swp =>
    if unfound ≤ o.size then (swp + unfound * o.price, 0)
    else lasLoop rest (unfound - o.size) (swp + o.size * o.price)

/-- `OrderBook::limit_at_size` (lib.rs:251-283).  Note the opposite book:
buys for a Sell query, sells for a Buy query, exactly `oppList`. -/
def limit_at_size (ob : OrderBook) (direction : OrderSide) (size : Int) :
    Option LimitReport :=
  let r := lasLoop (oppList ob direction) size 0
  if size = 0 then none
  else some { price := divF64 |r.1| (size - r.2), size := size - r.2 }

/-- Well-formedness of a book side on the sorted-list model of `BTreeSet`:
strictly ascending in `ordCmp` (every real `BTreeSet` state satisfies it). -/
def SortedBook (l : List Order) : Prop :=
  List.Pairwise (fun a b => ordCmp a b = Ordering.lt) l

/-- Total size of a list of fills. -/
def fillSum (fs : List Fill) : Int :=
  (fs.map Fill.size).sum

/-- Every order in the list has strictly positive size. -/
def posList (l : List Order) : Prop :=
  ∀ x ∈ l, 0 < x.size

/-- Specification predicate for the fill list of one trade walk against the
passive orders `ps` it consumed (in order): each fill carries the
aggressor's side as direction, the passive order's internal price times
`bs` (= the passive order's admitted price, given the sign-flipped storage
of buy prices), the passive order's id, and size `min r p.size` where `r`
is the aggressor's remaining size when that fill happened. -/
def fillsOk (side : OrderSide) (bs : Int) : Int → List Fill → List Order → Prop
  | _, [], _ => True
  | _, _ :: _, [] => False
  | r, f :: fs, p :: ps =>
    f.direction = side ∧ f.price = bs * p.price ∧ f.passive_id = p.order_id ∧
    f.size = min r p.size ∧ fillsOk side bs (r - f.size) fs ps

/-- The stored price `remove` looks up (lib.rs:174-184): the caller's price
negated for Buy (buy prices are stored negated), unchanged for Sell. -/
def removeKey (c : Order) : Int :=
  match c.order_side with
  | OrderSide.Buy => -c.price
  | OrderSide.Sell => c.price

instance (l : List Order) : Decidable (posList l) :=
  List.decidableBAll _ l

instance (l : List Order) : Decidable (SortedBook l) :=
  List.instDecidablePairwise l

/-! Concrete book states used by counterexamples and evaluation theorems. -/

/-- A book holding one resting buy order, 20@100, sequence number 1230
(stored internally with price −100). -/
def exBook1 : OrderBook :=
  (add OrderBook.new (Order.new OrderSide.Buy 20 100 OrderType.Limit) 0).2

/-- A caller-side copy carrying the correct sequence number 1230 of the
order resting in `exBook1` but a different price (99 instead of 100). -/
def exStaleCopy : Order :=
  { Order.new OrderSide.Buy 20 99 OrderType.Limit with order_number := 1230 }

/-- A caller-side copy carrying the stored key of the order resting in
`exBook1` — side Buy, price 100 (negated by `remove` to the stored −100),
sequence number 1230 — but wildly different size (999) and timestamp (77). -/
def exMatchCopy : Order :=
  { Order.new OrderSide.Buy 999 100 OrderType.Limit with
      order_number := 1230, timestamp := 77 }

/-- A caller-side content update for the order resting in `exBook1`:
correct stored key (price −100 as `replace` does not negate, sequence
number 1230) but size 0. -/
def exZeroSizeCopy : Order :=
  { Order.new OrderSide.Buy 0 (-100) OrderType.Limit with order_number := 1230 }

/-- Tie-break scenario, step 1: buy order #1230, 10@100, rests. -/
def tieB1 : OrderBook :=
  (add OrderBook.new (Order.new OrderSide.Buy 10 100 OrderType.Limit) 0).2

/-- Step 2: a sell 5@100 partially fills #1230 down to size 5. -/
def tieB2 : OrderBook :=
  (add tieB1 (Order.new OrderSide.Sell 5 100 OrderType.Limit) 0).2

/-- Step 3: buy order #1232, 10@100, admitted later at the same price. -/
def tieB3 : OrderBook :=
  (add tieB2 (Order.new OrderSide.Buy 10 100 OrderType.Limit) 0).2

/-- Step 4: a sell 3@100 matches the front of the buy book. -/
def tieB4 : OrderBook :=
  (add tieB3 (Order.new OrderSide.Sell 3 100 OrderType.Limit) 0).2

/-! Helper lemmas about the comparator and the sorted-list `BTreeSet` model. -/

theorem ordCmp_eq_iff (a b : Order) :
    ordCmp a b = Ordering.eq ↔ a.price = b.price ∧ a.order_number = b.order_number := by
  unfold ordCmp
  split_ifs with h1 h2 h3 h4 <;> simp <;> omega

theorem ordCmp_lt_iff (a b : Order) :
    ordCmp a b = Ordering.lt ↔
      a.price < b.price ∨ (a.price = b.price ∧ b.order_number < a.order_number) := by
  unfold ordCmp
  split_ifs with h1 h2 h3 h4 <;> simp <;> omega

theorem ordCmp_lt_trans {a b c : Order} (h1 : ordCmp a b = Ordering.lt)
    (h2 : ordCmp b c = Ordering.lt) : ordCmp a c = Ordering.lt := by
  rw [ordCmp_lt_iff] at h1 h2 ⊢
  omega

theorem ordCmp_self_eq (o : Order) : ordCmp o o = Ordering.eq := by
  rw [ordCmp_eq_iff]
  exact ⟨rfl, rfl⟩

/-- `BTreeSet::remove` of an element `Ord`-equal to the minimum drops the
head: this is what `trade`'s `opp.remove(&next_order_clone)` does. -/
theorem btRemove_head (x : Order) (xs : List Order) (o : Order)
    (h : ordCmp o x = Ordering.eq) : btRemove (x :: xs) o = (true, xs) := by
  simp [btRemove, h]

/-- `BTreeSet::replace` of an element `Ord`-equal to the minimum swaps the
head: this is what `trade`'s `opp.replace(replacement)` does. -/
theorem btReplace_head (x : Order) (xs : List Order) (o : Order)
    (h : ordCmp o x = Ordering.eq) : btReplace (x :: xs) o = (some x, o :: xs) := by
  simp [btReplace, h]

theorem btRemove_sub {l : List Order} {o x : Order}
    (hx : x ∈ (btRemove l o).2) : x ∈ l := by
  induction l with
  | nil => simp [btRemove] at hx
  | cons y ys ih =>
    rcases h : ordCmp o y with _ | _ | _ <;> simp [btRemove, h] at hx
    · simpa using hx
    · simp [hx]
    · rcases hx with hx | hx
      · simp [hx]
      · simp [ih hx]

theorem btRemove_dropped {l : List Order} {o x : Order}
    (hx : x ∈ l) (hnx : x ∉ (btRemove l o).2) : ordCmp o x = Ordering.eq := by
  induction l with
  | nil => simp at hx
  | cons y ys ih =>
    rcases h : ordCmp o y with _ | _ | _
    · have he : (btRemove (y :: ys) o).2 = y :: ys := by simp [btRemove, h]
      rw [he] at hnx
      exact absurd hx hnx
    · have he : (btRemove (y :: ys) o).2 = ys := by simp [btRemove, h]
      rw [he] at hnx
      rcases List.mem_cons.1 hx with hx | hx
      · rw [hx]; exact h
      · exact absurd hx hnx
    · have he : (btRemove (y :: ys) o).2 = y :: (btRemove ys o).2 := by
        simp [btRemove, h]
      rw [he] at hnx
      rcases List.mem_cons.1 hx with hx | hx
      · exact absurd (by simp [hx]) hnx
      · exact ih hx fun hc => hnx (List.mem_cons_of_mem y hc)

theorem sortedBook_head_lt {x : Order} {xs : List Order}
    (h : SortedBook (x :: xs)) : ∀ y ∈ xs, ordCmp x y = Ordering.lt :=
  (List.pairwise_cons.1 h).1

theorem sortedBook_tail {x : Order} {xs : List Order}
    (h : SortedBook (x :: xs)) : SortedBook xs :=
  (List.pairwise_cons.1 h).2

theorem btRemove_true_iff {l : List Order} (o : Order) (hs : SortedBook l) :
    (btRemove l o).1 = true ↔ ∃ x ∈ l, ordCmp o x = Ordering.eq := by
  induction l with
  | nil => simp [btRemove]
  | cons y ys ih =>
    rcases h : ordCmp o y with _ | _ | _
    · have he : (btRemove (y :: ys) o).1 = false := by simp [btRemove, h]
      rw [he]
      simp only [Bool.false_eq_true, false_iff]
      rintro ⟨x, hx, hex⟩
      rcases List.mem_cons.1 hx with hx | hx
      · rw [hx] at hex; rw [hex] at h; simp at h
      · have hlt := ordCmp_lt_trans h (sortedBook_head_lt hs x hx)
        rw [hex] at hlt; simp at hlt
    · have he : (btRemove (y :: ys) o).1 = true := by simp [btRemove, h]
      rw [he]
      constructor
      · intro _; exact ⟨y, List.mem_cons_self y ys, h⟩
      · intro _; rfl
    · have he : (btRemove (y :: ys) o).1 = (btRemove ys o).1 := by
        simp [btRemove, h]
      rw [he, ih (sortedBook_tail hs)]
      constructor
      · rintro ⟨x, hx, hex⟩; exact ⟨x, List.mem_cons_of_mem y hx, hex⟩
      · rintro ⟨x, hx, hex⟩
        rcases List.mem_cons.1 hx with hx | hx
        · rw [hx] at hex; rw [hex] at h; simp at h
        · exact ⟨x, hx, hex⟩

theorem btReplace_prev {l : List Order} {o p : Order}
    (h : (btReplace l o).1 = some p) : p ∈ l ∧ ordCmp o p = Ordering.eq := by
  induction l with
  | nil => simp [btReplace] at h
  | cons y ys ih =>
    rcases hc : ordCmp o y with _ | _ | _ <;> simp [btReplace, hc] at h
    · rw [← h]
      exact ⟨List.mem_cons_self y ys, hc⟩
    · rcases ih h with ⟨hm, he⟩
      exact ⟨List.mem_cons_of_mem y hm, he⟩

theorem btReplace_sub {l : List Order} {o x : Order}
    (hx : x ∈ (btReplace l o).2) : x ∈ l ∨ x = o := by
  induction l with
  | nil =>
    simp [btReplace] at hx
    exact Or.inr hx
  | cons y ys ih =>
    rcases h : ordCmp o y with _ | _ | _ <;> simp [btReplace, h] at hx
    · rcases hx with hx | hx | hx
      · exact Or.inr hx
      · exact Or.inl (by simp [hx])
      · exact Or.inl (List.mem_cons_of_mem y hx)
    · rcases hx with hx | hx
      · exact Or.inr hx
      · exact Or.inl (List.mem_cons_of_mem y hx)
    · rcases hx with hx | hx
      · exact Or.inl (by simp [hx])
      · rcases ih hx with hm | he
        · exact Or.inl (List.mem_cons_of_mem y hm)
        · exact Or.inr he

theorem fillSum_nil : fillSum [] = 0 := rfl

theorem fillSum_cons (f : Fill) (fs : List Fill) :
    fillSum (f :: fs) = f.size + fillSum fs := by
  simp [fillSum]

theorem posList_nil : posList [] := by
  intro x hx
  simp at hx

theorem posList_cons {x : Order} {l : List Order} :
    posList (x :: l) ↔ 0 < x.size ∧ posList l := by
  simp [posList]

/-! Structural lemmas about the trade walk. -/

theorem tradeLoop_conservation (opp : List Order) :
    ∀ (aggro : Order) (bs ts : Int),
      fillSum (tradeLoop aggro opp bs ts).1 + ((tradeLoop aggro opp bs ts).2.1).size
        = aggro.size := by
  induction opp with
  | nil => intro aggro bs ts; simp [tradeLoop, fillSum]
  | cons next rest ih =>
    intro aggro bs ts
    simp only [tradeLoop]
    split_ifs with h1 h2 h3 h4 <;> dsimp only
    · simp [fillSum]
    · simp [fillSum, mkFill]
    · rw [fillSum_cons]
      have hmk : (mkFill aggro next bs ts next.size).size = next.size := rfl
      have h := ih { aggro with size := aggro.size - next.size } bs ts
      have hsz : ({ aggro with size := aggro.size - next.size } : Order).size
          = aggro.size - next.size := rfl
      rw [hsz] at h
      rw [hmk]
      omega
    · have hmk : (mkFill aggro next bs ts next.size).size = next.size := rfl
      rw [fillSum_cons, fillSum_nil, hmk]
      omega
    · simp [fillSum]

theorem tradeLoop_fills (opp : List Order) :
    ∀ (aggro : Order) (bs ts : Int),
      ∃ k, fillsOk aggro.order_side bs aggro.size
        (tradeLoop aggro opp bs ts).1 (opp.take k) := by
  induction opp with
  | nil =>
    intro aggro bs ts
    exact ⟨0, trivial⟩
  | cons next rest ih =>
    intro aggro bs ts
    simp only [tradeLoop]
    split_ifs with h1 h2 h3 h4
    · exact ⟨0, trivial⟩
    · refine ⟨1, ?_⟩
      simp only [List.take, fillsOk]
      refine ⟨rfl, rfl, rfl, by simp [mkFill]; omega, trivial⟩
    · obtain ⟨k, hk⟩ := ih { aggro with size := aggro.size - next.size } bs ts
      refine ⟨k + 1, ?_⟩
      simp only [List.take, fillsOk]
      refine ⟨rfl, rfl, rfl, by simp [mkFill]; omega, ?_⟩
      have hmk : (mkFill aggro next bs ts next.size).size = next.size := rfl
      rw [hmk]
      exact hk
    · refine ⟨1, ?_⟩
      simp only [List.take, fillsOk]
      refine ⟨rfl, rfl, rfl, by simp [mkFill]; omega, trivial⟩
    · exact ⟨0, trivial⟩

theorem tradeLoop_opp_pos (opp : List Order) :
    ∀ (aggro : Order) (bs ts : Int), posList opp →
      posList (tradeLoop aggro opp bs ts).2.2 := by
  induction opp with
  | nil => intro aggro bs ts _; exact posList_nil
  | cons next rest ih =>
    intro aggro bs ts hpos
    rcases posList_cons.1 hpos with ⟨hn, hrest⟩
    simp only [tradeLoop]
    split_ifs with h1 h2 h3 h4
    · exact hpos
    · refine posList_cons.2 ⟨?_, hrest⟩
      have : ({ next with size := next.size - aggro.size } : Order).size
          = next.size - aggro.size := rfl
      rw [this]
      omega
    · exact ih { aggro with size := aggro.size - next.size } bs ts hrest
    · exact hrest
    · exact hpos

theorem tradeLoop_aggro (opp : List Order) :
    ∀ (aggro : Order) (bs ts : Int),
      ∃ s, (tradeLoop aggro opp bs ts).2.1 = { aggro with size := s } := by
  induction opp with
  | nil => intro aggro bs ts; exact ⟨aggro.size, rfl⟩
  | cons next rest ih =>
    intro aggro bs ts
    simp only [tradeLoop]
    split_ifs with h1 h2 h3 h4
    · exact ⟨aggro.size, rfl⟩
    · exact ⟨0, rfl⟩
    · obtain ⟨s, hs⟩ := ih { aggro with size := aggro.size - next.size } bs ts
      exact ⟨s, hs⟩
    · exact ⟨0, rfl⟩
    · exact ⟨aggro.size, rfl⟩

theorem tradeLoop_aggro_type (opp : List Order) (aggro : Order) (bs ts : Int) :
    ((tradeLoop aggro opp bs ts).2.1).order_type = aggro.order_type := by
  obtain ⟨s, hs⟩ := tradeLoop_aggro opp aggro bs ts
  rw [hs]

theorem tradeLoop_opp_numbers (opp : List Order) :
    ∀ (aggro : Order) (bs ts : Int) (x : Order),
      x ∈ (tradeLoop aggro opp bs ts).2.2 →
        ∃ y ∈ opp, x.order_number = y.order_number := by
  induction opp with
  | nil => intro aggro bs ts x hx; simp [tradeLoop] at hx
  | cons next rest ih =>
    intro aggro bs ts x hx
    simp only [tradeLoop] at hx
    split_ifs at hx with h1 h2 h3 h4
    · exact ⟨x, hx, rfl⟩
    · rcases List.mem_cons.1 hx with hx | hx
      · exact ⟨next, List.mem_cons_self next rest, by rw [hx]⟩
      · exact ⟨x, List.mem_cons_of_mem next hx, rfl⟩
    · obtain ⟨y, hy, hxy⟩ := ih { aggro with size := aggro.size - next.size } bs ts x hx
      exact ⟨y, List.mem_cons_of_mem next hy, hxy⟩
    · exact ⟨x, List.mem_cons_of_mem next hx, rfl⟩
    · exact ⟨x, hx, rfl⟩

/-! Bridging lemmas from `trade`/`add` down to the loop. -/

theorem trade_fst (ob : OrderBook) (o : Order) (bs ts : Int) :
    (trade ob o bs ts).1
      = (tradeLoop { o with price := bs * o.price } (oppList ob o.order_side) bs ts).1 := by
  cases h : o.order_side <;> simp [trade, h]

theorem add_assigned (ob : OrderBook) (o : Order) (ts : Int) :
    (add ob o ts).1.1 = ob.counter := rfl

theorem add_snd (ob : OrderBook) (o : Order) (ts : Int) :
    (add ob o ts).2
      = (trade { ob with counter := ob.counter + 1 }
          { o with timestamp := ts, order_number := ob.counter }
          (sideSign o.order_side) ts).2 := rfl

theorem add_fills (ob : OrderBook) (o : Order) (ts : Int) :
    (add ob o ts).1.2 = (tradeRun ob o ts).1 := by
  have h : (add ob o ts).1.2
      = (trade { ob with counter := ob.counter + 1 }
          { o with timestamp := ts, order_number := ob.counter }
          (sideSign o.order_side) ts).1 := rfl
  rw [h, trade_fst]
  rfl

theorem trade_pos (ob : OrderBook) (o : Order) (bs ts : Int)
    (hb : posList ob.buy_orders) (hs : posList ob.sell_orders) :
    posList (trade ob o bs ts).2.buy_orders ∧ posList (trade ob o bs ts).2.sell_orders := by
  have hrest : ∀ (own : List Order) (r2 : Order), posList own →
      posList (if 0 < r2.size ∧ r2.order_type ≠ OrderType.Ioc then
        (btReplace own { r2 with price := -1 * r2.price }).2 else own) := by
    intro own r2 hown
    split_ifs with hc
    · intro x hx
      rcases btReplace_sub hx with hm | he
      · exact hown x hm
      · rw [he]
        exact hc.1
    · exact hown
  cases h : o.order_side <;>
    simp only [trade, h, oppList, ownList] <;>
    exact ⟨by
        first
        | exact hrest _ _ hb
        | exact tradeLoop_opp_pos _ _ _ _ hb,
      by
        first
        | exact hrest _ _ hs
        | exact tradeLoop_opp_pos _ _ _ _ hs⟩

theorem trade_ioc_numbers (ob : OrderBook) (o : Order) (bs ts : Int)
    (hioc : o.order_type = OrderType.Ioc) :
    ∀ x ∈ (trade ob o bs ts).2.buy_orders ++ (trade ob o bs ts).2.sell_orders,
      ∃ y ∈ ob.buy_orders ++ ob.sell_orders, x.order_number = y.order_number := by
  have htype : ∀ (opp : List Order) (a : Order), a.order_type = OrderType.Ioc →
      ¬(0 < ((tradeLoop a opp bs ts).2.1).size
        ∧ ((tradeLoop a opp bs ts).2.1).order_type ≠ OrderType.Ioc) := by
    intro opp a ha hc
    have := tradeLoop_aggro_type opp a bs ts
    rw [this] at hc
    exact hc.2 ha
  cases h : o.order_side <;> simp only [trade, h, oppList, ownList] <;> intro x hx
  · rw [if_neg (htype ob.sell_orders
        { o with order_side := OrderSide.Buy, price := bs * o.price } hioc)] at hx
    rcases List.mem_append.1 hx with hx | hx
    · exact ⟨x, List.mem_append.2 (Or.inl hx), rfl⟩
    · obtain ⟨y, hy, hxy⟩ := tradeLoop_opp_numbers ob.sell_orders _ bs ts x hx
      exact ⟨y, List.mem_append.2 (Or.inr hy), hxy⟩
  · rw [if_neg (htype ob.buy_orders
        { o with order_side := OrderSide.Sell, price := bs * o.price } hioc)] at hx
    rcases List.mem_append.1 hx with hx | hx
    · obtain ⟨y, hy, hxy⟩ := tradeLoop_opp_numbers ob.buy_orders _ bs ts x hx
      exact ⟨y, List.mem_append.2 (Or.inl hy), hxy⟩
    · exact ⟨x, List.mem_append.2 (Or.inr hx), rfl⟩

/-! Claim theorems. -/

/-- C1: the claim says `best_bid()`/`best_offer()` return the best resting
order or `None` on an empty side and never panic.  Evaluating the code at
the failing input — a freshly constructed book with no resting buy orders —
shows `best_bid` panics (the outer `none` models the `unwrap` of
`buy_orders.first()` on `None`), while `best_offer` does return the empty
result.  The code therefore violates the claim for `best_bid`. -/
theorem c1_best_bid_empty_book_panics :
    best_bid OrderBook.new = none ∧ best_offer OrderBook.new = none :=
  ⟨rfl, rfl⟩

/-- C3: conservation — for any trade walk (hence any single `add` call),
the sum of the produced fill sizes plus the aggressor's remaining size
after matching (rested or discarded) equals the admitted order's original
size.  The first conjunct states it for the loop on arbitrary inputs; the
second instantiates it for the walk performed by `add ob o ts`, whose fill
list is exactly `(add ob o ts).1.2`. -/
theorem c3_add_conserves_size :
    (∀ (aggro : Order) (opp : List Order) (bs ts : Int),
      fillSum (tradeLoop aggro opp bs ts).1 + ((tradeLoop aggro opp bs ts).2.1).size
        = aggro.size)
    ∧ ∀ (ob : OrderBook) (o : Order) (ts : Int),
        fillSum (add ob o ts).1.2 + ((tradeRun ob o ts).2.1).size = o.size := by
  constructor
  · intro aggro opp bs ts
    exact tradeLoop_conservation opp aggro bs ts
  · intro ob o ts
    rw [add_fills]
    exact tradeLoop_conservation (oppList ob o.order_side)
      { o with timestamp := ts, order_number := ob.counter,
               price := sideSign o.order_side * o.price }
      (sideSign o.order_side) ts

/-- C5: crossing check — a non-Market aggressor stops (no fills, book
unchanged) as soon as the best opposite price is not at least as favorable
as its limit; in the loop's internal sign-flipped coordinates that is
`next.price > aggro.price`, which reads "best ask > buy limit" for a buy
aggressor (`bs = 1`) and "best bid < sell limit" for a sell aggressor
(`bs = -1`, prices negated).  A Market aggressor skips the check: with
remaining size and a non-empty opposite book it always produces a fill at
the best opposite price. -/
theorem c5_crossing_check (aggro next : Order) (rest : List Order) (bs ts : Int) :
    (aggro.order_type ≠ OrderType.Market → next.price > aggro.price →
      tradeLoop aggro (next :: rest) bs ts = ([], aggro, next :: rest))
    ∧ (aggro.order_type = OrderType.Market → 0 < aggro.size →
      ∃ f fs, (tradeLoop aggro (next :: rest) bs ts).1 = f :: fs
        ∧ f.price = bs * next.price ∧ f.direction = aggro.order_side) := by
  constructor
  · intro hm hp
    simp only [tradeLoop]
    by_cases h1 : 0 < aggro.size
    · rw [if_pos h1, if_pos ⟨hp, hm⟩]
    · rw [if_neg h1]
  · intro hm hsz
    simp only [tradeLoop]
    rw [if_pos hsz]
    have hc : ¬(next.price > aggro.price ∧ aggro.order_type ≠ OrderType.Market) :=
      fun hc => hc.2 hm
    rw [if_neg hc]
    by_cases h3 : aggro.size < next.size
    · rw [if_pos h3]
      exact ⟨_, _, rfl, rfl, rfl⟩
    · rw [if_neg h3]
      by_cases h4 : aggro.size > next.size
      · rw [if_pos h4]
        exact ⟨_, _, rfl, rfl, rfl⟩
      · rw [if_neg h4]
        exact ⟨_, _, rfl, rfl, rfl⟩

/-- Witness for C5 at concrete inputs: a Limit buy aggressor (limit 10)
against a best ask of 20 stops with no fills; a Market buy aggressor with
the same book crosses and its first fill is at the passive price. -/
theorem c5_crossing_check_witness :
    (tradeLoop (Order.new OrderSide.Buy 5 10 OrderType.Limit)
        [Order.new OrderSide.Sell 3 20 OrderType.Limit] 1 0
      = ([], Order.new OrderSide.Buy 5 10 OrderType.Limit,
          [Order.new OrderSide.Sell 3 20 OrderType.Limit]))
    ∧ ∃ f fs,
        (tradeLoop (Order.new OrderSide.Buy 5 10 OrderType.Market)
            [Order.new OrderSide.Sell 3 20 OrderType.Limit] 1 0).1 = f :: fs
        ∧ f.price = 1 * (Order.new OrderSide.Sell 3 20 OrderType.Limit).price
        ∧ f.direction = (Order.new OrderSide.Buy 5 10 OrderType.Market).order_side :=
  ⟨(c5_crossing_check (Order.new OrderSide.Buy 5 10 OrderType.Limit)
      (Order.new OrderSide.Sell 3 20 OrderType.Limit) [] 1 0).1
        (by decide) (by decide),
   (c5_crossing_check (Order.new OrderSide.Buy 5 10 OrderType.Market)
      (Order.new OrderSide.Sell 3 20 OrderType.Limit) [] 1 0).2
        rfl (by decide)⟩

/-- C6: every fill produced by `add` has direction equal to the aggressor's
side, price `bs * p.price` where `p` is the matched passive order as stored
and `bs = sideSign side` — i.e. the passive order's admitted price, undoing
the sign-flipped storage of buy prices — the passive order's id, and size
`min r p.size` where `r` is the aggressor's remaining size at that step
(`fillsOk` chains `r` through the fill list); the passive orders consumed
are an initial segment of the opposite book in priority order. -/
theorem c6_fill_fields (ob : OrderBook) (o : Order) (ts : Int) :
    ∃ k, fillsOk o.order_side (sideSign o.order_side) o.size
      (add ob o ts).1.2 ((oppList ob o.order_side).take k) := by
  rw [add_fills]
  exact tradeLoop_fills (oppList ob o.order_side)
    { o with timestamp := ts, order_number := ob.counter,
             price := sideSign o.order_side * o.price }
    (sideSign o.order_side) ts

/-- C7: ImmediateOrCancel orders never rest — after `add` of an Ioc order
on a book whose resting orders do not already carry the about-to-be
assigned sequence number (true of every reachable book), if the fills did
not cover the admitted size then no order in either book carries the
assigned sequence number: the remainder was discarded. -/
theorem c7_ioc_never_rests (ob : OrderBook) (o : Order) (ts : Int)
    (hioc : o.order_type = OrderType.Ioc)
    (hfresh : ∀ x ∈ ob.buy_orders ++ ob.sell_orders, x.order_number ≠ ob.counter)
    (_hpart : fillSum (add ob o ts).1.2 < o.size) :
    ∀ x ∈ (add ob o ts).2.buy_orders ++ (add ob o ts).2.sell_orders,
      x.order_number ≠ (add ob o ts).1.1 := by
  intro x hx
  rw [add_assigned]
  rw [add_snd] at hx
  obtain ⟨y, hy, hxy⟩ := trade_ioc_numbers { ob with counter := ob.counter + 1 }
    { o with timestamp := ts, order_number := ob.counter }
    (sideSign o.order_side) ts hioc x hx
  rw [hxy]
  exact hfresh y hy

/-- Witness for C7: adding Ioc buy 5@100 to the empty book fills nothing
(0 < 5), and afterwards no resting order carries the assigned number. -/
theorem c7_ioc_never_rests_witness :
    ((Order.new OrderSide.Buy 5 100 OrderType.Ioc).order_type = OrderType.Ioc)
    ∧ fillSum (add OrderBook.new (Order.new OrderSide.Buy 5 100 OrderType.Ioc) 0).1.2
        < (Order.new OrderSide.Buy 5 100 OrderType.Ioc).size
    ∧ ∀ x ∈ (add OrderBook.new (Order.new OrderSide.Buy 5 100 OrderType.Ioc) 0).2.buy_orders
          ++ (add OrderBook.new (Order.new OrderSide.Buy 5 100 OrderType.Ioc) 0).2.sell_orders,
        x.order_number
          ≠ (add OrderBook.new (Order.new OrderSide.Buy 5 100 OrderType.Ioc) 0).1.1 :=
  ⟨rfl, by decide,
    c7_ioc_never_rests OrderBook.new (Order.new OrderSide.Buy 5 100 OrderType.Ioc) 0
      rfl (by decide) (by decide)⟩

/-- C2 counterexample: `exBook1` holds the order with sequence number 1230
(admitted Buy 20@100, stored price −100); `exStaleCopy` carries the correct
sequence number 1230 but price 99, and `remove` fails (returns `false` and
leaves the book unchanged) — so a copy carrying the correct sequence number
does not succeed regardless of the other fields: the lookup also keys on
price. -/
theorem c2_remove_by_seq_only_counterexample :
    (∃ x ∈ exBook1.buy_orders, x.order_number = exStaleCopy.order_number)
    ∧ remove exBook1 exStaleCopy = (false, exBook1) := by
  decide

/-- C2 amended: `remove` and `replace` match a resting order by the
comparator key — stored price, then sequence number (the side picks the
book, and `remove` negates a Buy copy's price into storage coordinates,
`removeKey`, while `replace` does not) — so success depends on price and
sequence number only (size, timestamp, id, type are never consulted), and
only an order carrying the copy's sequence number is ever removed or
returned as the replaced element. -/
theorem c2_match_by_price_and_seq (ob : OrderBook) (c : Order)
    (hb : SortedBook ob.buy_orders) (hs : SortedBook ob.sell_orders) :
    ((remove ob c).1 = true ↔
      ∃ x ∈ ownList ob c.order_side,
        x.price = removeKey c ∧ x.order_number = c.order_number)
    ∧ (∀ x, x ∈ ownList ob c.order_side →
        x ∉ ownList (remove ob c).2 c.order_side → x.order_number = c.order_number)
    ∧ (∀ p, (replace ob c).1 = some p →
        p ∈ ownList ob c.order_side ∧ p.price = c.price
          ∧ p.order_number = c.order_number) := by
  cases h : c.order_side
  case Buy =>
    simp only [remove, replace, ownList, removeKey, h]
    refine ⟨?_, ?_, ?_⟩
    · rw [btRemove_true_iff { c with order_side := OrderSide.Buy, price := -c.price } hb]
      refine exists_congr fun x => and_congr_right fun _ => ?_
      rw [ordCmp_eq_iff]
      constructor
      · rintro ⟨h1, h2⟩; exact ⟨h1.symm, h2.symm⟩
      · rintro ⟨h1, h2⟩; exact ⟨h1.symm, h2.symm⟩
    · intro x hx hnx
      have := btRemove_dropped hx hnx
      exact ((ordCmp_eq_iff _ _).1 this).2.symm
    · intro p hp
      obtain ⟨hm, he⟩ := btReplace_prev hp
      rcases (ordCmp_eq_iff _ _).1 he with ⟨h1, h2⟩
      exact ⟨hm, h1.symm, h2.symm⟩
  case Sell =>
    simp only [remove, replace, ownList, removeKey, h]
    refine ⟨?_, ?_, ?_⟩
    · rw [btRemove_true_iff c hs]
      refine exists_congr fun x => and_congr_right fun _ => ?_
      rw [ordCmp_eq_iff]
      constructor
      · rintro ⟨h1, h2⟩; exact ⟨h1.symm, h2.symm⟩
      · rintro ⟨h1, h2⟩; exact ⟨h1.symm, h2.symm⟩
    · intro x hx hnx
      have := btRemove_dropped hx hnx
      exact ((ordCmp_eq_iff _ _).1 this).2.symm
    · intro p hp
      obtain ⟨hm, he⟩ := btReplace_prev hp
      rcases (ordCmp_eq_iff _ _).1 he with ⟨h1, h2⟩
      exact ⟨hm, h1.symm, h2.symm⟩

/-- Witness for the amended C2 at `exBook1` and a copy with the correct
key (price 100, sequence 1230) but unrelated size 999 and timestamp 77. -/
theorem c2_match_by_price_and_seq_witness :
    ((remove exBook1 exMatchCopy).1 = true ↔
      ∃ x ∈ ownList exBook1 exMatchCopy.order_side,
        x.price = removeKey exMatchCopy ∧ x.order_number = exMatchCopy.order_number)
    ∧ (∀ x, x ∈ ownList exBook1 exMatchCopy.order_side →
        x ∉ ownList (remove exBook1 exMatchCopy).2 exMatchCopy.order_side →
          x.order_number = exMatchCopy.order_number)
    ∧ (∀ p, (replace exBook1 exMatchCopy).1 = some p →
        p ∈ ownList exBook1 exMatchCopy.order_side ∧ p.price = exMatchCopy.price
          ∧ p.order_number = exMatchCopy.order_number) :=
  c2_match_by_price_and_seq exBook1 exMatchCopy (by decide) (by decide)

/-- C4: evaluation at the failing input.  Order #1230 (Buy 10@100) is
partially filled down to size 5 — the in-place update does keep its
sequence number and stored price (first conjunct, `tieB2`).  Then #1232
(Buy 10@100) is admitted at the same price and the comparator places it in
front (`tieB3`): the later-admitted order precedes.  A subsequent Sell
3@100 therefore fills #1232, not the earlier partially filled #1230
(`tieB4`) — refuting "after the fill it still precedes every
later-admitted order at the same price" and contradicting the source's own
"Orders are processed in Price/Time priority" module doc (lib.rs:6). -/
theorem c4_tie_break_evaluation :
    (tieB2.buy_orders.map fun o => (o.order_number, o.price, o.size))
        = [(1230, -100, 5)]
    ∧ (tieB3.buy_orders.map fun o => (o.order_number, o.size))
        = [(1232, 10), (1230, 5)]
    ∧ (tieB4.buy_orders.map fun o => (o.order_number, o.size))
        = [(1232, 7), (1230, 5)] := by
  decide

/-- C9 counterexample: `exBook1` satisfies the positivity invariant, yet
the public `replace` with a size-0 content update (`exZeroSizeCopy`,
matching the resting order's stored key) succeeds and leaves a size-0
order resting in the buy book — `replace` stores the caller's content
unchecked, so the invariant is not preserved by every public operation. -/
theorem c9_replace_zero_size_counterexample :
    posList exBook1.buy_orders
    ∧ (replace exBook1 exZeroSizeCopy).1.isSome = true
    ∧ ((replace exBook1 exZeroSizeCopy).2.buy_orders.map Order.size) = [0] := by
  decide

/-- C9 amended: strict positivity of every resting order's size is
preserved by `add` (the trade walk removes a passive order the instant its
remaining size reaches 0 and rests a remainder only when positive) and by
`remove`; `replace` preserves it only when the caller-supplied order has
positive size, since it stores the supplied content unchecked (and inserts
it even when no existing order matches). -/
theorem c9_positive_sizes (ob : OrderBook) (o : Order) (ts : Int)
    (hb : posList ob.buy_orders) (hs : posList ob.sell_orders) :
    (posList (add ob o ts).2.buy_orders ∧ posList (add ob o ts).2.sell_orders)
    ∧ (posList (remove ob o).2.buy_orders ∧ posList (remove ob o).2.sell_orders)
    ∧ (0 < o.size →
        posList (replace ob o).2.buy_orders ∧ posList (replace ob o).2.sell_orders) := by
  refine ⟨?_, ?_, ?_⟩
  · rw [add_snd]
    exact trade_pos { ob with counter := ob.counter + 1 }
      { o with timestamp := ts, order_number := ob.counter }
      (sideSign o.order_side) ts hb hs
  · cases h : o.order_side <;> simp only [remove, h]
    · exact ⟨fun x hx => hb x (btRemove_sub hx), hs⟩
    · exact ⟨hb, fun x hx => hs x (btRemove_sub hx)⟩
  · intro hsz
    cases h : o.order_side <;> simp only [replace, h]
    · refine ⟨fun x hx => ?_, hs⟩
      rcases btReplace_sub hx with hm | he
      · exact hb x hm
      · rw [he]; exact hsz
    · refine ⟨hb, fun x hx => ?_⟩
      rcases btReplace_sub hx with hm | he
      · exact hs x hm
      · rw [he]; exact hsz

/-- Witness for the amended C9 at `exBook1` (one resting buy of size 20)
and a size-1 sell order. -/
theorem c9_positive_sizes_witness :
    (posList (add exBook1 (Order.new OrderSide.Sell 1 100 OrderType.Limit) 0).2.buy_orders
      ∧ posList (add exBook1 (Order.new OrderSide.Sell 1 100 OrderType.Limit) 0).2.sell_orders)
    ∧ (posList (remove exBook1 (Order.new OrderSide.Sell 1 100 OrderType.Limit)).2.buy_orders
      ∧ posList (remove exBook1 (Order.new OrderSide.Sell 1 100 OrderType.Limit)).2.sell_orders)
    ∧ (0 < (Order.new OrderSide.Sell 1 100 OrderType.Limit).size →
        posList (replace exBook1 (Order.new OrderSide.Sell 1 100 OrderType.Limit)).2.buy_orders
      ∧ posList (replace exBook1 (Order.new OrderSide.Sell 1 100 OrderType.Limit)).2.sell_orders) :=
  c9_positive_sizes exBook1 (Order.new OrderSide.Sell 1 100 OrderType.Limit) 0
    (by decide) (by decide)

/-- C10: on an empty opposite book, `limit_at_size` does not return `None`
for a positive requested size: the loop finds nothing (`found = 0`), the
guard only checks `size == 0`, and the report is built with size 0 and
price `0.0/0.0`, which is NaN; `None` is returned exactly when the
requested size is 0. -/
theorem c10_limit_at_size_empty_book (ob : OrderBook) (direction : OrderSide)
    (size : Int) (hemp : oppList ob direction = []) :
    (0 < size → limit_at_size ob direction size
        = some { price := F64.nan, size := 0 })
    ∧ (limit_at_size ob direction size = none ↔ size = 0) := by
  constructor
  · intro hsz
    simp only [limit_at_size, hemp, lasLoop]
    rw [if_neg (by omega : ¬size = 0)]
    have h1 : size - size = 0 := by omega
    simp only [h1]
    simp [divF64]
  · simp only [limit_at_size, hemp, lasLoop]
    constructor
    · intro hcontra
      by_cases hz : size = 0
      · exact hz
      · rw [if_neg hz] at hcontra
        simp at hcontra
    · intro hz
      rw [if_pos hz]

/-- Witness for C10 on the empty book with requested size 5. -/
theorem c10_limit_at_size_empty_book_witness :
    (0 < (5 : Int) → limit_at_size OrderBook.new OrderSide.Buy 5
        = some { price := F64.nan, size := 0 })
    ∧ (limit_at_size OrderBook.new OrderSide.Buy 5 = none ↔ (5 : Int) = 0) :=
  c10_limit_at_size_empty_book OrderBook.new OrderSide.Buy 5 rfl

end Orderlib
